import Mathlib

/-!
Shallow embedding of the codec engine of `src/tools/basenc/basenc.c`
(WinCoreUtils `basenc`), together with proofs settling the spec claims.

Conventions of the embedding:
* C byte buffers become `List Nat` (each element an `unsigned char` value);
  wherever the C code stores an expression into an `unsigned char`, the
  embedding truncates with `% 256`.
* C character buffers become `List Char`; reads past the written region of a
  decode input buffer (the C code NUL-terminates with `inbuf[sum] = 0`) are
  modelled by `bufGet`, which yields the NUL character.
* `exit_with_error` becomes `Except CodecError`.  The message
  `"invalid input"` is `CodecError.invalidInput` (the spec's
  `InvalidInputSymbol`); the multiple-of-N messages are
  `CodecError.misalignedLength` (the spec's `MisalignedLength`).
* Each `out[j++] = v` guarded by `j < outlen` is modelled by `cEmit`; in the
  decode functions the write index `j` always equals the number of bytes
  produced so far, so `out.length` stands for `j`.
-/

inductive CodecError where
  | invalidInput
  | misalignedLength
deriving DecidableEq, Repr

/-- Emission of a list of symbols into a bounded output buffer: each symbol is
written only when the current index `j` is below `outlen` (mirroring the
per-character `if (j < outlen) { out[j++] = …; out_len++; }` pattern of the C
code).  Returns the written symbols and the final index. -/
def cEmit {α : Type} (outlen : Nat) : Nat → List α → List α × Nat
  | j, [] => ([], j)
  | j, x :: xs =>
    if j < outlen then
      let r := cEmit outlen (j + 1) xs
      (x :: r.1, r.2)
    else
      cEmit outlen j xs

/-- Read of `in[i]` from a decode input buffer; past the end the C buffer holds
the NUL terminator written by `do_decode`. -/
def bufGet (buf : List Char) (i : Nat) : Char := buf.getD i (Char.ofNat 0)

/-- Line-break test `in[i] == '\n' || in[i] == '\r'` used by the decoders. -/
def isNL (c : Char) : Bool := c == '\n' || c == '\r'

/-- Removal of all line-break characters from an input (used to state the
line-break-insignificance claim). -/
def filterNL (l : List Char) : List Char := l.filter (fun c => !(isNL c))

/-- C `toupper` on the ASCII range, as used via `<ctype.h>`. -/
def toupperC (c : Char) : Char :=
  if 97 ≤ c.toNat ∧ c.toNat ≤ 122 then Char.ofNat (c.toNat - 32) else c

/-- Conversion of an `int` value to the `unsigned char` it becomes when stored
into a byte buffer (`-1` becomes `255`). -/
def ucOfInt (v : Int) : Nat := (v % 256).toNat

/-! ## Base64 (`base64_chars`, `base64url_chars`, lines 78-226) -/

def base64_chars : List Char :=
  "ABCDEFGHIJKLMNOPQRSTUVWXYZabcdefghijklmnopqrstuvwxyz0123456789+/".toList

def base64url_chars : List Char :=
  "ABCDEFGHIJKLMNOPQRSTUVWXYZabcdefghijklmnopqrstuvwxyz0123456789-_".toList

/-- `is_base64`: `isalnum(c) || c == '+' || c == '/'` (C locale, ASCII). -/
def is_base64 (c : Char) : Bool :=
  (decide (65 ≤ c.toNat ∧ c.toNat ≤ 90)) || (decide (97 ≤ c.toNat ∧ c.toNat ≤ 122)) ||
    (decide (48 ≤ c.toNat ∧ c.toNat ≤ 57)) || c == '+' || c == '/'

/-- `is_base64url`: `isalnum(c) || c == '-' || c == '_'`. -/
def is_base64url (c : Char) : Bool :=
  (decide (65 ≤ c.toNat ∧ c.toNat ≤ 90)) || (decide (97 ≤ c.toNat ∧ c.toNat ≤ 122)) ||
    (decide (48 ≤ c.toNat ∧ c.toNat ≤ 57)) || c == '-' || c == '_'

/-- `base64_char_to_value` (codepoints: A=65, a=97, 0=48). -/
def base64_char_to_value (c : Char) : Int :=
  if 65 ≤ c.toNat ∧ c.toNat ≤ 90 then (c.toNat : Int) - 65
  else if 97 ≤ c.toNat ∧ c.toNat ≤ 122 then (c.toNat : Int) - 97 + 26
  else if 48 ≤ c.toNat ∧ c.toNat ≤ 57 then (c.toNat : Int) - 48 + 52
  else if c = '+' then 62
  else if c = '/' then 63
  else -1

/-- `base64url_char_to_value`. -/
def base64url_char_to_value (c : Char) : Int :=
  if 65 ≤ c.toNat ∧ c.toNat ≤ 90 then (c.toNat : Int) - 65
  else if 97 ≤ c.toNat ∧ c.toNat ≤ 122 then (c.toNat : Int) - 97 + 26
  else if 48 ≤ c.toNat ∧ c.toNat ≤ 57 then (c.toNat : Int) - 48 + 52
  else if c = '-' then 62
  else if c = '_' then 63
  else -1

/-- Charset selection: `do_encode`/`do_decode` pass either `base64_chars` or
`base64url_chars`; the pointer identity test `charset == base64_chars` of the C
code is the `isStd` flag here. -/
def b64charset (isStd : Bool) : List Char := if isStd then base64_chars else base64url_chars

def b64valid (isUrl : Bool) (c : Char) : Bool := if isUrl then is_base64url c else is_base64 c

def b64val (isUrl : Bool) (c : Char) : Int :=
  if isUrl then base64url_char_to_value c else base64_char_to_value c

/-- The four output symbols computed from one (zero-padded) 3-byte group
(`char_array_4` of `base64_encode_block`). -/
def b64syms (cs : List Char) (b0 b1 b2 : Nat) : List Char :=
  [cs.getD ((b0 &&& 0xfc) >>> 2) 'A',
   cs.getD (((b0 &&& 0x03) <<< 4) + ((b1 &&& 0xf0) >>> 4)) 'A',
   cs.getD (((b1 &&& 0x0f) <<< 2) + ((b2 &&& 0xc0) >>> 6)) 'A',
   cs.getD (b2 &&& 0x3f) 'A']

/-- Loop of `base64_encode_block` (lines 110-162): full 3-byte groups emit all
four symbols; a final partial group of `i` bytes emits `i + 1` symbols and,
only for the standard charset, `3 - i` pad characters. -/
def base64_encode_go (isStd : Bool) (outlen : Nat) : List Nat → Nat → List Char
  | [], _ => []
  | [b0], j =>
    let r := cEmit outlen j ((b64syms (b64charset isStd) b0 0 0).take 2)
    r.1 ++ (if isStd then (cEmit outlen r.2 (List.replicate 2 '=')).1 else [])
  | [b0, b1], j =>
    let r := cEmit outlen j ((b64syms (b64charset isStd) b0 b1 0).take 3)
    r.1 ++ (if isStd then (cEmit outlen r.2 (List.replicate 1 '=')).1 else [])
  | b0 :: b1 :: b2 :: rest, j =>
    let r := cEmit outlen j (b64syms (b64charset isStd) b0 b1 b2)
    r.1 ++ base64_encode_go isStd outlen rest r.2

def base64_encode_block (inp : List Nat) (outlen : Nat) (isStd : Bool) : List Char :=
  base64_encode_go isStd outlen inp 0

/-- The three output bytes computed from four 6-bit values
(`char_array_3` of `base64_decode_block`); stores are `unsigned char`. -/
def b64group (vals : List Nat) : List Nat :=
  let v0 := vals.getD 0 0
  let v1 := vals.getD 1 0
  let v2 := vals.getD 2 0
  let v3 := vals.getD 3 0
  [((v0 <<< 2) + ((v1 &&& 0x30) >>> 4)) % 256,
   (((v1 &&& 0xf) <<< 4) + ((v2 &&& 0x3c) >>> 2)) % 256,
   (((v2 &&& 0x3) <<< 6) + v3) % 256]

/-- The post-loop block of `base64_decode_block` (lines 200-223): when `i`
characters were accumulated, the code re-reads the last `i` input positions
`in[k-i..k-i+3]` (`'='` contributing 0, any other character its
`char_to_value`, `-1` becoming 255 in the `unsigned char` array) and emits the
first `i - 1` reconstructed bytes. -/
def base64_finish (isUrl : Bool) (outlen : Nat) (buf : List Char) (k i : Nat)
    (out : List Nat) : Except CodecError (List Nat) :=
  if i = 0 then .ok out
  else
    let c4 := (List.range 4).map (fun l =>
      let ch := bufGet buf (k - i + l)
      if ch = '=' then 0 else ucOfInt (b64val isUrl ch))
    let r := cEmit outlen out.length ((b64group c4).take (i - 1))
    .ok (out ++ r.1)

/-- Main loop of `base64_decode_block` (lines 164-198).  The loop guard is
`inlen-- && in[k] != '=' && (is_valid_char(in[k]) || ignore_garbage)`; each
iteration consumes one character, so the remaining budget is carried as a
fuel argument while `k` indexes the buffer.  Note the in-loop
`exit_with_error("invalid input")` branch is kept exactly as written even
though the guard makes it unreachable. -/
def base64_decode_go (isUrl ig : Bool) (outlen : Nat) (buf : List Char) :
    Nat → Nat → List Char → List Nat → Except CodecError (List Nat)
  | 0, k, acc, out => base64_finish isUrl outlen buf k acc.length out
  | budget + 1, k, acc, out =>
    let c := bufGet buf k
    if c = '=' then base64_finish isUrl outlen buf k acc.length out
    else if b64valid isUrl c || ig then
      if b64valid isUrl c then
        let acc2 := acc ++ [c]
        if acc2.length = 4 then
          let vals := acc2.map (fun ch => ucOfInt (b64val isUrl ch))
          let r := cEmit outlen out.length (b64group vals)
          base64_decode_go isUrl ig outlen buf budget (k + 1) [] (out ++ r.1)
        else base64_decode_go isUrl ig outlen buf budget (k + 1) acc2 out
      else if ig then base64_decode_go isUrl ig outlen buf budget (k + 1) acc out
      else .error .invalidInput
    else base64_finish isUrl outlen buf k acc.length out

def base64_decode_block (input : List Char) (outlen : Nat) (isUrl ig : Bool) :
    Except CodecError (List Nat) :=
  base64_decode_go isUrl ig outlen input input.length 0 [] []

/-! ## Base32 (`base32_chars`, `base32hex_chars`, lines 228-364) -/

def base32_chars : List Char := "ABCDEFGHIJKLMNOPQRSTUVWXYZ234567".toList

def base32hex_chars : List Char := "0123456789ABCDEFGHIJKLMNOPQRSTUV".toList

/-- `base32_char_to_value`: `strchr(alphabet, toupper(c))` position, `-1` when
absent.  `strchr` also matches the NUL terminator of the alphabet string, so
the search runs over `alphabet ++ [NUL]`. -/
def base32_char_to_value (alphabet : List Char) (c : Char) : Int :=
  match List.findIdx? (fun x => x == toupperC c) (alphabet ++ [Char.ofNat 0]) with
  | some i => (i : Int)
  | none => -1

/-- The eight output symbols of one (zero-padded) 5-byte group of
`base32_encode_block`. -/
def base32_syms (alphabet : List Char) (buffer : List Nat) : List Char :=
  let b := fun k => buffer.getD k 0
  [alphabet.getD ((b 0 >>> 3) &&& 0x1F) 'A',
   alphabet.getD (((b 0 &&& 0x07) <<< 2) ||| ((b 1 >>> 6) &&& 0x03)) 'A',
   alphabet.getD ((b 1 >>> 1) &&& 0x1F) 'A',
   alphabet.getD (((b 1 &&& 0x01) <<< 4) ||| ((b 2 >>> 4) &&& 0x0F)) 'A',
   alphabet.getD (((b 2 &&& 0x0F) <<< 1) ||| ((b 3 >>> 7) &&& 0x01)) 'A',
   alphabet.getD ((b 3 >>> 2) &&& 0x1F) 'A',
   alphabet.getD (((b 3 &&& 0x03) <<< 3) ||| ((b 4 >>> 5) &&& 0x07)) 'A',
   alphabet.getD (b 4 &&& 0x1F) 'A']

/-- The `switch (inlen % 5)` padding block of `base32_encode_block`
(lines 270-303), run after the final group's eight symbols were emitted;
`j` is the output index `index` at that point. -/
def base32_pad (outlen m j : Nat) : List Char :=
  match m with
  | 1 => if 2 < j ∧ j ≤ outlen then (cEmit outlen j (List.replicate 6 '=')).1 else []
  | 2 => if 4 < j ∧ j ≤ outlen then (cEmit outlen j (List.replicate 4 '=')).1 else []
  | 3 => if 5 < j ∧ j ≤ outlen then (cEmit outlen j (List.replicate 3 '=')).1 else []
  | 4 => if 7 < j ∧ j ≤ outlen then ['='] else []
  | _ => []

/-- Loop of `base32_encode_block` (lines 244-307); `n` is the total input
length `inlen` (used by the padding switch). -/
def base32_encode_go (alphabet : List Char) (outlen n : Nat) : List Nat → Nat → List Char
  | [], _ => []
  | b0 :: b1 :: b2 :: b3 :: b4 :: c :: rest, j =>
    let r := cEmit outlen j (base32_syms alphabet [b0, b1, b2, b3, b4])
    r.1 ++ base32_encode_go alphabet outlen n (c :: rest) r.2
  | l, j =>
    let r := cEmit outlen j (base32_syms alphabet (l ++ List.replicate (5 - l.length) 0))
    r.1 ++ base32_pad outlen (n % 5) r.2

def base32_encode_block (alphabet : List Char) (inp : List Nat) (outlen : Nat) : List Char :=
  base32_encode_go alphabet outlen inp.length inp 0

/-- The five output bytes of one 8-value group of `base32_decode_block`
(each an `unsigned char` store, hence `% 256`). -/
def base32_group (b : List Nat) : List Nat :=
  let g := fun k => b.getD k 0
  [((g 0 <<< 3) ||| (g 1 >>> 2)) % 256,
   ((g 1 <<< 6) ||| (g 2 <<< 1) ||| (g 3 >>> 4)) % 256,
   ((g 3 <<< 4) ||| (g 4 >>> 1)) % 256,
   ((g 4 <<< 7) ||| (g 5 <<< 2) ||| (g 6 >>> 3)) % 256,
   ((g 6 <<< 5) ||| g 7) % 256]

/-- The trailing-characters block of `base32_decode_block` (lines 352-361):
the partial buffer is zero-padded to 8 and bytes are emitted according to the
`buffer_size >= 2/4/5/7` thresholds. -/
def base32_rest (outlen : Nat) (buf out : List Nat) : List Nat :=
  let g := base32_group (buf ++ List.replicate (8 - buf.length) 0)
  let cand :=
    (if 2 ≤ buf.length then [g.getD 0 0] else []) ++
    (if 4 ≤ buf.length then [g.getD 1 0] else []) ++
    (if 5 ≤ buf.length then [g.getD 2 0] else []) ++
    (if 7 ≤ buf.length then [g.getD 3 0] else [])
  out ++ (cEmit outlen out.length cand).1

/-- Loop of `base32_decode_block` (lines 309-349): line breaks and `'='` are
skipped, invalid characters are fatal unless `ignore_garbage`, accepted values
accumulate into an 8-entry buffer that flushes to five bytes when full. -/
def base32_decode_go (alphabet : List Char) (ig : Bool) (outlen : Nat) :
    List Char → List Nat → List Nat → Except CodecError (List Nat)
  | [], buf, out => .ok (base32_rest outlen buf out)
  | c :: rest, buf, out =>
    if isNL c then base32_decode_go alphabet ig outlen rest buf out
    else if c = '=' then base32_decode_go alphabet ig outlen rest buf out
    else
      let v := base32_char_to_value alphabet c
      if v = -1 then
        if ig then base32_decode_go alphabet ig outlen rest buf out
        else .error .invalidInput
      else
        let buf2 := buf ++ [ucOfInt v]
        if buf2.length = 8 then
          let r := cEmit outlen out.length (base32_group buf2)
          base32_decode_go alphabet ig outlen rest [] (out ++ r.1)
        else base32_decode_go alphabet ig outlen rest buf2 out

def base32_decode_block (alphabet : List Char) (input : List Char) (outlen : Nat)
    (ig : Bool) : Except CodecError (List Nat) :=
  base32_decode_go alphabet ig outlen input [] []

/-! ## Base16 (lines 366-433) -/

/-- `is_base16`: `isxdigit(c)` (ASCII). -/
def is_base16 (c : Char) : Bool :=
  (decide (48 ≤ c.toNat ∧ c.toNat ≤ 57)) || (decide (65 ≤ c.toNat ∧ c.toNat ≤ 70)) ||
    (decide (97 ≤ c.toNat ∧ c.toNat ≤ 102))

/-- `base16_char_to_value` (codepoints: 0=48, A=65, a=97). -/
def base16_char_to_value (c : Char) : Int :=
  if 48 ≤ c.toNat ∧ c.toNat ≤ 57 then (c.toNat : Int) - 48
  else if 65 ≤ c.toNat ∧ c.toNat ≤ 70 then (c.toNat : Int) - 65 + 10
  else if 97 ≤ c.toNat ∧ c.toNat ≤ 102 then (c.toNat : Int) - 97 + 10
  else -1

/-- Loop of `base16_decode_block` (lines 392-433).  The loop guard is
`i + 1 < inlen && j < outlen`, so a final lone character is never examined;
a line break at `in[i+1]` advances `i` by one (restarting at the second
character and discarding the computed high digit), as does an invalid low
digit under `ignore_garbage`. -/
def base16_decode_go (ig : Bool) (outlen : Nat) :
    List Char → List Nat → Except CodecError (List Nat)
  | [], out => .ok out
  | [_], out => .ok out
  | a :: b :: rest, out =>
    if out.length < outlen then
      if isNL a then base16_decode_go ig outlen (b :: rest) out
      else if base16_char_to_value a = -1 then
        if ig then base16_decode_go ig outlen (b :: rest) out
        else .error .invalidInput
      else if isNL b then base16_decode_go ig outlen (b :: rest) out
      else if base16_char_to_value b = -1 then
        if ig then base16_decode_go ig outlen (b :: rest) out
        else .error .invalidInput
      else
        base16_decode_go ig outlen rest
          (out ++ [((base16_char_to_value a).toNat <<< 4) ||| (base16_char_to_value b).toNat])
    else .ok out

def base16_decode_block (input : List Char) (outlen : Nat) (ig : Bool) :
    Except CodecError (List Nat) :=
  base16_decode_go ig outlen input []

/-! ## Base2 (lines 435-505) -/

/-- `is_base2`: `c == '0' || c == '1'`. -/
def is_base2 (c : Char) : Bool := c == '0' || c == '1'

/-- Loop of `base2_decode_block` (lines 462-505): guard `i < inlen && j < outlen`;
line breaks skipped, invalid characters fatal unless `ignore_garbage`, bits
accumulate into a byte (msb-first shifts left with `unsigned char`
truncation, lsb-first ORs at the current bit position); a byte is emitted
every 8 bits, and a nonzero leftover bit count at loop exit is fatal. -/
def base2_decode_go (msb ig : Bool) (outlen : Nat) :
    List Char → Nat → Nat → List Nat → Except CodecError (List Nat)
  | [], _, bc, out => if 0 < bc then .error .misalignedLength else .ok out
  | c :: rest, byte, bc, out =>
    if out.length < outlen then
      if isNL c then base2_decode_go msb ig outlen rest byte bc out
      else if is_base2 c then
        let bit := if c = '1' then 1 else 0
        let byte2 := if msb then ((byte <<< 1) ||| bit) % 256 else byte ||| (bit <<< bc)
        if bc + 1 = 8 then base2_decode_go msb ig outlen rest 0 0 (out ++ [byte2])
        else base2_decode_go msb ig outlen rest byte2 (bc + 1) out
      else if ig then base2_decode_go msb ig outlen rest byte bc out
      else .error .invalidInput
    else if 0 < bc then .error .misalignedLength else .ok out

def base2_decode_block (input : List Char) (outlen : Nat) (msb ig : Bool) :
    Except CodecError (List Nat) :=
  base2_decode_go msb ig outlen input 0 0 []

/-! ## Z85 (lines 507-604) -/

def z85_encoding_chars : List Char :=
  "0123456789abcdefghijklmnopqrstuvwxyzABCDEFGHIJKLMNOPQRSTUVWXYZ.-:+=^!/*?&<>()[]\x7b\x7d@%$#".toList

/-- `z85_decoding_table`: decoding values for ASCII 33-125, `-1` marking
invalid symbols. -/
def z85_decoding_table : List Int :=
  [68, -1, 84, 83, 82, 72, -1, 75, 76, 70, 65, -1, 63, 62, 69,
   0, 1, 2, 3, 4, 5, 6, 7, 8, 9, 64, -1, 73, 66, 74, 71,
   36, 37, 38, 39, 40, 41, 42, 43, 44, 45, 46, 47, 48, 49, 50, 51,
   52, 53, 54, 55, 56, 57, 58, 59, 60, 61, 77, -1, 78, 67, -1, -1,
   10, 11, 12, 13, 14, 15, 16, 17, 18, 19, 20, 21, 22, 23, 24, 25,
   26, 27, 28, 29, 30, 31, 32, 33, 34, 35, 79, -1, 80, -1, -1]

/-- `is_z85`: in range 33-125 and mapped by the table. -/
def is_z85 (c : Char) : Bool :=
  decide (33 ≤ c.toNat) && decide (c.toNat ≤ 125) &&
    !(z85_decoding_table.getD (c.toNat - 33) (-1) == -1)

/-- Table value of a valid z85 symbol (stored into an `unsigned char`). -/
def z85val (c : Char) : Nat := (z85_decoding_table.getD (c.toNat - 33) (-1)).toNat

/-- Loop of `z85_encode_block` (lines 536-549): guard
`i + 3 < inlen && j + 4 < outlen`; each 4-byte group becomes the value
`(in[i]<<24)|…|in[i+3]` written as five base-85 digits, most significant
first. -/
def z85_encode_go (outlen : Nat) : List Nat → Nat → List Char
  | b0 :: b1 :: b2 :: b3 :: rest, j =>
    if j + 4 < outlen then
      let v := (b0 <<< 24) ||| (b1 <<< 16) ||| (b2 <<< 8) ||| b3
      let d := fun k => z85_encoding_chars.getD ((v / 85 ^ k) % 85) '0'
      [d 4, d 3, d 2, d 1, d 0] ++ z85_encode_go outlen rest (j + 5)
    else []
  | _, _ => []

/-- `z85_encode_block` (lines 528-552): a length not a multiple of 4 is fatal
before any output. -/
def z85_encode_block (inp : List Nat) (outlen : Nat) : Except CodecError (List Char) :=
  if inp.length % 4 = 0 then .ok (z85_encode_go outlen inp 0) else .error .misalignedLength

/-- Loop of `z85_decode_block` (lines 564-603): guard
`i < inlen && j + 3 < outlen`; line breaks skipped, invalid symbols fatal
unless `ignore_garbage`, five accumulated digits produce one 32-bit value
(`unsigned int` arithmetic, hence `% 2^32`) split into four bytes; a nonempty
buffer at loop exit is fatal. -/
def z85_decode_go (ig : Bool) (outlen : Nat) :
    List Char → List Nat → List Nat → Except CodecError (List Nat)
  | [], buf, out => if 0 < buf.length then .error .misalignedLength else .ok out
  | c :: rest, buf, out =>
    if out.length + 3 < outlen then
      if isNL c then z85_decode_go ig outlen rest buf out
      else if is_z85 c then
        let buf2 := buf ++ [z85val c]
        if buf2.length = 5 then
          let v := buf2.foldl (fun a d => (a * 85 + d) % 4294967296) 0
          z85_decode_go ig outlen rest []
            (out ++ [(v >>> 24) &&& 0xFF, (v >>> 16) &&& 0xFF, (v >>> 8) &&& 0xFF, v &&& 0xFF])
        else z85_decode_go ig outlen rest buf2 out
      else if ig then z85_decode_go ig outlen rest buf out
      else .error .invalidInput
    else if 0 < buf.length then .error .misalignedLength else .ok out

/-- `z85_decode_block` (lines 554-604): without `ignore_garbage` the raw input
length (line breaks and all) must be a multiple of 5 before the loop runs. -/
def z85_decode_block (input : List Char) (outlen : Nat) (ig : Bool) :
    Except CodecError (List Nat) :=
  if ¬ input.length % 5 = 0 ∧ ig = false then .error .misalignedLength
  else z85_decode_go ig outlen input [] []

/-! ## Wrap writer and encode-run finalization (lines 832-852, 699-703) -/

/-- Per-character loop of `wrap_write` for `wrap_column > 0`: before each
symbol, if the column counter has reached the wrap column a line break is
emitted and the counter reset; the symbol is then emitted and the counter
incremented.  Returns the emitted characters and the final counter. -/
def wrapEmit (W : Nat) : Nat → List Char → List Char × Nat
  | col, [] => ([], col)
  | col, c :: rest =>
    if W ≤ col then
      let r := wrapEmit W 1 rest
      ('\n' :: c :: r.1, r.2)
    else
      let r := wrapEmit W (col + 1) rest
      (c :: r.1, r.2)

/-- `wrap_write` (lines 832-852): wrap column 0 passes the buffer through
(still advancing the counter); otherwise the per-character loop runs. -/
def wrap_write (W col : Nat) (buffer : List Char) : List Char × Nat :=
  if W = 0 then (buffer, col + buffer.length) else wrapEmit W col buffer

/-- The encode-side output path of `do_encode`: each chunk's encoded symbols
go through `wrap_write` with the running column counter, and at end of stream
one trailing line break is emitted when `wrap_column > 0` and the counter is
nonzero (lines 695, 699-703). -/
def encode_run (W : Nat) (chunks : List (List Char)) : List Char :=
  let r := chunks.foldl
    (fun (acc : List Char × Nat) ch =>
      let w := wrap_write W acc.2 ch
      (acc.1 ++ w.1, w.2)) ([], 0)
  r.1 ++ (if 0 < W ∧ 0 < r.2 then ['\n'] else [])

/-- Concatenation of lines with single line breaks between them (the shape in
which the wrap invariant is stated). -/
def joinLines : List (List Char) → List Char
  | [] => []
  | [l] => l
  | l :: m :: rest => l ++ '\n' :: joinLines (m :: rest)

/-- Decidable equality for `Except`, so that concrete decode results can be
checked by `decide`. -/
instance {e a : Type} [DecidableEq e] [DecidableEq a] : DecidableEq (Except e a) := fun x y =>
  match x, y with
  | .error u, .error v =>
    if h : u = v then isTrue (by rw [h]) else isFalse (fun hh => h (Except.error.inj hh))
  | .ok u, .ok v =>
    if h : u = v then isTrue (by rw [h]) else isFalse (fun hh => h (Except.ok.inj hh))
  | .error _, .ok _ => isFalse (fun hh => Except.noConfusion hh)
  | .ok _, .error _ => isFalse (fun hh => Except.noConfusion hh)

/-- C1: decoding the base32 encoding of the single byte `0x66` yields
`[0x66, 0, 0, 0, 0]`, not `[0x66]`: the round-trip
`decode_block (encode_block bytes) = bytes` fails on the base32 scheme. -/
theorem base32_roundtrip_bug_eval :
    base32_decode_block base32_chars (base32_encode_block base32_chars [0x66] 100) 100 false
      = .ok [0x66, 0, 0, 0, 0] ∧
    ¬ base32_decode_block base32_chars (base32_encode_block base32_chars [0x66] 100) 100 false
      = .ok [0x66] := by decide

/-- C2: base32 encoding of the single byte `0x66` produces
`"MYAAAAAA======"` (eight alphabet symbols, the zero-filled tail included,
followed by six pads appended after them), not the claimed `"MY======"`. -/
theorem base32_encode_pad_bug_eval :
    base32_encode_block base32_chars [0x66] 100 = "MYAAAAAA======".toList ∧
    ¬ base32_encode_block base32_chars [0x66] 100 = "MY======".toList := by decide

/-- C4: base64 decoding of `"QQ==\ngarbage***QQ=="` without ignore-garbage
does not fail: the loop guard silently terminates at the first `'='`
(the in-loop invalid-input error branch being unreachable) and the call
returns the single byte `0x41`. -/
theorem base64_decode_silent_stop_eval :
    base64_decode_block "QQ==\ngarbage***QQ==".toList 100 false false = .ok [0x41] := by decide

/-- C3 counterexample: base64url encoding of `[0x4D, 0x61]` is the unpadded
`"TWE"`, whose length is not a multiple of 4. -/
theorem base64url_unpadded_cex :
    base64_encode_block [0x4D, 0x61] 100 false = "TWE".toList ∧
    ¬ (base64_encode_block [0x4D, 0x61] 100 false).length % 4 = 0 := by decide

/-- C5 counterexample: base16 decoding is not insensitive to line breaks:
`"A\nB"` decodes to `[]` while `"AB"` decodes to `[0xAB]`. -/
theorem base16_newline_cex :
    base16_decode_block "A\nB".toList 10 false = .ok [] ∧
    base16_decode_block "AB".toList 10 false = .ok [0xAB] := by decide

/-- C8 counterexample: `"Hello\n"` has exactly five valid z85 symbols, yet
decoding it without ignore-garbage fails, because the up-front length check
counts the raw input (line break included). -/
theorem z85_newline_reject_cex :
    ("Hello\n".toList.filter is_z85).length % 5 = 0 ∧
    z85_decode_block "Hello\n".toList 100 false = .error .misalignedLength := by decide

/-- Fully-within-bounds emission: when the buffer has room for all symbols,
`cEmit` writes them all and advances the index by their number. -/
theorem cEmit_all {α : Type} (outlen : Nat) :
    ∀ (xs : List α) (j : Nat), j + xs.length ≤ outlen → cEmit outlen j xs = (xs, j + xs.length) := by
  intro xs
  induction xs with
  | nil => intro j h; simp [cEmit]
  | cons x xs ih =>
    intro j h
    simp only [List.length_cons] at h
    have hj : j < outlen := by omega
    simp only [cEmit, if_pos hj, ih (j + 1) (by omega)]
    simp
    omega

/-- Length of the output of the standard-charset base64 encode loop: with
room in the output buffer, every group (the padded final group included)
contributes exactly four symbols. -/
theorem base64_encode_go_length (outlen : Nat) :
    ∀ (inp : List Nat) (j : Nat), j + 4 * ((inp.length + 2) / 3) ≤ outlen →
      (base64_encode_go true outlen inp j).length = 4 * ((inp.length + 2) / 3)
  | [], j, h => by simp [base64_encode_go]
  | [b0], j, h => by
    have h4 : j + 4 ≤ outlen := by norm_num at h; omega
    have ht : ((b64syms (b64charset true) b0 0 0).take 2).length = 2 := by simp [b64syms]
    have e1 := cEmit_all outlen ((b64syms (b64charset true) b0 0 0).take 2) j (by rw [ht]; omega)
    rw [ht] at e1
    have e2 := cEmit_all outlen (List.replicate 2 ('=' : Char)) (j + 2) (by simp only [List.length_replicate]; omega)
    simp only [base64_encode_go, e1, e2]
    simp [ht]
  | [b0, b1], j, h => by
    have h4 : j + 4 ≤ outlen := by norm_num at h; omega
    have ht : ((b64syms (b64charset true) b0 b1 0).take 3).length = 3 := by simp [b64syms]
    have e1 := cEmit_all outlen ((b64syms (b64charset true) b0 b1 0).take 3) j (by rw [ht]; omega)
    rw [ht] at e1
    have e2 := cEmit_all outlen (List.replicate 1 ('=' : Char)) (j + 3) (by simp only [List.length_replicate]; omega)
    simp only [base64_encode_go, e1, e2]
    simp [ht]
  | b0 :: b1 :: b2 :: rest, j, h => by
    have hsplit : ((b0 :: b1 :: b2 :: rest).length + 2) / 3 = (rest.length + 2) / 3 + 1 := by
      have hceil : (b0 :: b1 :: b2 :: rest).length + 2 = rest.length + 2 + 3 := by simp
      rw [hceil, Nat.add_div_right _ (by norm_num)]
    have hs : (b64syms (b64charset true) b0 b1 b2).length = 4 := by simp [b64syms]
    have e1 := cEmit_all outlen (b64syms (b64charset true) b0 b1 b2) j
      (by rw [hs]; rw [hsplit] at h; omega)
    rw [hs] at e1
    have hrec := base64_encode_go_length outlen rest (j + 4) (by rw [hsplit] at h; omega)
    simp only [base64_encode_go, e1]
    simp only [List.length_append, hs, hrec, hsplit]
    omega

/-- C3 (amended): for the standard base64 alphabet, when the output buffer has
room the encoded output length is always a multiple of 4 (the final partial
group being completed with `'='` pads), and `[0x4D, 0x61]` encodes to
`"TWE="`; the base64url alphabet emits the final partial group without pads
(`"TWE"`). -/
theorem base64_pad_multiple_of_four :
    (∀ (inp : List Nat) (outlen : Nat), 4 * ((inp.length + 2) / 3) ≤ outlen →
      (base64_encode_block inp outlen true).length % 4 = 0) ∧
    base64_encode_block [0x4D, 0x61] 100 true = "TWE=".toList ∧
    base64_encode_block [0x4D, 0x61] 100 false = "TWE".toList := by
  refine ⟨?_, by decide, by decide⟩
  intro inp outlen h
  rw [base64_encode_block, base64_encode_go_length outlen inp 0 (by omega)]
  omega

/-- Witness for `base64_pad_multiple_of_four` at the concrete input
`[0x4D, 0x61]` with output bound 4. -/
theorem base64_pad_multiple_of_four_witness :
    4 * ((([0x4D, 0x61] : List Nat).length + 2) / 3) ≤ 4 ∧
    (base64_encode_block [0x4D, 0x61] 4 true).length % 4 = 0 :=
  ⟨by decide, base64_pad_multiple_of_four.1 [0x4D, 0x61] 4 (by decide)⟩

/-- Line breaks are no-ops in the base32 decode loop: decoding an input with
its line breaks removed reaches exactly the same state and result. -/
theorem base32_decode_go_filterNL (alphabet : List Char) (ig : Bool) (outlen : Nat) :
    ∀ (input : List Char) (buf out : List Nat),
      base32_decode_go alphabet ig outlen (filterNL input) buf out
        = base32_decode_go alphabet ig outlen input buf out := by
  intro input
  induction input with
  | nil => intro buf out; rfl
  | cons c rest ih =>
    intro buf out
    by_cases hnl : isNL c = true
    · have hf : filterNL (c :: rest) = filterNL rest := by
        simp [filterNL, List.filter_cons, hnl]
      rw [hf, ih]
      conv_rhs => rw [base32_decode_go]
      rw [if_pos hnl]
    · have hf : filterNL (c :: rest) = c :: filterNL rest := by
        simp [filterNL, List.filter_cons]
        simp at hnl
        simp [hnl]
      rw [hf]
      rw [base32_decode_go]
      conv_rhs => rw [base32_decode_go]
      simp only [hnl, if_false]
      split_ifs <;> first | rfl | exact ih _ _

/-- One-step unfolding of the base2 decode loop on a cons cell. -/
theorem base2_decode_go_cons (msb ig : Bool) (outlen : Nat) (c : Char) (rest : List Char)
    (byte bc : Nat) (out : List Nat) :
    base2_decode_go msb ig outlen (c :: rest) byte bc out =
      (if out.length < outlen then
        if isNL c then base2_decode_go msb ig outlen rest byte bc out
        else if is_base2 c then
          let bit := if c = '1' then 1 else 0
          let byte2 := if msb then ((byte <<< 1) ||| bit) % 256 else byte ||| (bit <<< bc)
          if bc + 1 = 8 then base2_decode_go msb ig outlen rest 0 0 (out ++ [byte2])
          else base2_decode_go msb ig outlen rest byte2 (bc + 1) out
        else if ig then base2_decode_go msb ig outlen rest byte bc out
        else .error .invalidInput
      else if 0 < bc then .error .misalignedLength else .ok out) := rfl

/-- When the output bound is already reached, the base2 decode loop exits at
once with its final leftover-bit check, whatever input remains. -/
theorem base2_decode_go_stop (msb ig : Bool) (outlen : Nat) (rest : List Char)
    (byte bc : Nat) (out : List Nat) (h : ¬ out.length < outlen) :
    base2_decode_go msb ig outlen rest byte bc out =
      if 0 < bc then .error .misalignedLength else .ok out := by
  cases rest with
  | nil => rfl
  | cons c r => rw [base2_decode_go_cons, if_neg h]

/-- Line breaks are no-ops in the base2 decode loop. -/
theorem base2_decode_go_filterNL (msb ig : Bool) (outlen : Nat) :
    ∀ (input : List Char) (byte bc : Nat) (out : List Nat),
      base2_decode_go msb ig outlen (filterNL input) byte bc out
        = base2_decode_go msb ig outlen input byte bc out := by
  intro input
  induction input with
  | nil => intro byte bc out; rfl
  | cons c rest ih =>
    intro byte bc out
    by_cases hnl : isNL c = true
    · have hf : filterNL (c :: rest) = filterNL rest := by
        simp [filterNL, List.filter_cons, hnl]
      rw [hf, ih]
      conv_rhs => rw [base2_decode_go_cons]
      by_cases hout : out.length < outlen
      · rw [if_pos hout, if_pos hnl]
      · rw [if_neg hout, base2_decode_go_stop msb ig outlen rest byte bc out hout]
    · have hf : filterNL (c :: rest) = c :: filterNL rest := by
        simp [filterNL, List.filter_cons]
        simp at hnl
        simp [hnl]
      rw [hf]
      rw [base2_decode_go_cons, base2_decode_go_cons]
      simp only [hnl, if_false]
      split_ifs <;> first | rfl | exact ih _ _ _

/-- C5 (amended): line-break characters interleaved anywhere in the input are
insignificant for the base32-family and base2-family decoders: removing them
changes neither the output bytes nor the success/failure outcome.  (The
base64, base16 and z85 decoders are not line-break-insensitive.) -/
theorem newline_insensitive_base32_base2 (alphabet : List Char) (input : List Char)
    (outlen : Nat) (ig msb : Bool) :
    base32_decode_block alphabet (filterNL input) outlen ig
        = base32_decode_block alphabet input outlen ig ∧
    base2_decode_block (filterNL input) outlen msb ig
        = base2_decode_block input outlen msb ig :=
  ⟨base32_decode_go_filterNL alphabet ig outlen input [] [],
   base2_decode_go_filterNL msb ig outlen input 0 0 []⟩

/-- A line-break character is not a binary digit. -/
theorem isNL_not_base2 (c : Char) (h : isNL c = true) : is_base2 c = false := by
  simp [isNL] at h
  rcases h with h | h <;> subst h <;> decide

/-- Loop invariant for `base2_decode_go`: if the run reaches end of input
(ignore-garbage set, or every character a digit or line break), the output
bound is never hit, and the number of pending digits is not a multiple of 8,
the loop ends in the misaligned-length error. -/
theorem base2_go_misaligned (msb ig : Bool) (outlen : Nat) :
    ∀ (rest : List Char) (byte bc : Nat) (out : List Nat),
      bc < 8 →
      (ig = true ∨ ∀ c ∈ rest, is_base2 c = true ∨ isNL c = true) →
      8 * out.length + bc + (rest.filter is_base2).length ≤ 8 * outlen →
      ¬ (bc + (rest.filter is_base2).length) % 8 = 0 →
      base2_decode_go msb ig outlen rest byte bc out = .error .misalignedLength := by
  intro rest
  induction rest with
  | nil =>
    intro byte bc out h8 hv hb hm
    simp only [List.filter_nil, List.length_nil, Nat.add_zero] at hm
    have hbc : 0 < bc := by omega
    rw [show base2_decode_go msb ig outlen [] byte bc out
        = (if 0 < bc then .error .misalignedLength else .ok out) from rfl, if_pos hbc]
  | cons c rest ih =>
    intro byte bc out h8 hv hb hm
    have hone : 1 ≤ bc + ((c :: rest).filter is_base2).length := by omega
    have hout : out.length < outlen := by omega
    rw [base2_decode_go_cons, if_pos hout]
    have hv' : ig = true ∨ ∀ x ∈ rest, is_base2 x = true ∨ isNL x = true :=
      hv.imp id (fun h x hx => h x (List.mem_cons_of_mem c hx))
    by_cases hnl : isNL c = true
    · rw [if_pos hnl]
      have hfc : is_base2 c = false := isNL_not_base2 c hnl
      have hfil : (c :: rest).filter is_base2 = rest.filter is_base2 := by
        simp [List.filter_cons, hfc]
      rw [hfil] at hb hm
      exact ih byte bc out h8 hv' hb hm
    · rw [if_neg hnl]
      by_cases hdig : is_base2 c = true
      · rw [if_pos hdig]
        have hfil : ((c :: rest).filter is_base2).length = (rest.filter is_base2).length + 1 := by
          simp [List.filter_cons, hdig]
        rw [hfil] at hb hm
        split_ifs <;>
          first
            | exact ih _ 0 (out ++ [_]) (by omega) hv'
                (by simp only [List.length_append, List.length_cons, List.length_nil]; omega)
                (by omega)
            | exact ih _ (bc + 1) out (by omega) hv' (by omega) (by omega)
      · rw [if_neg hdig]
        rcases hv with hig | hall
        · rw [if_pos hig]
          have hfil : (c :: rest).filter is_base2 = rest.filter is_base2 := by
            simp only [List.filter_cons]
            simp [hdig]
          rw [hfil] at hb hm
          exact ih byte bc out h8 hv' hb hm
        · rcases hall c (List.mem_cons_self c rest) with h | h
          · exact absurd h hdig
          · exact absurd h hnl

/-- C6: for base2 decoding (both bit orders), whenever the run reaches
end-of-input (any input under ignore-garbage; otherwise inputs of digits and
line breaks) with an accepted-digit count that is not a multiple of 8, the
decode fails with the misaligned-length error, for either setting of
ignore-garbage. -/
theorem base2_decode_misaligned (input : List Char) (outlen : Nat) (msb ig : Bool)
    (hreach : ig = true ∨ ∀ c ∈ input, is_base2 c = true ∨ isNL c = true)
    (hlen : input.length ≤ 8 * outlen)
    (hmod : ¬ (input.filter is_base2).length % 8 = 0) :
    base2_decode_block input outlen msb ig = .error .misalignedLength := by
  have hf : (input.filter is_base2).length ≤ input.length := List.length_filter_le _ _
  exact base2_go_misaligned msb ig outlen input 0 0 [] (by omega) hreach
    (by simp only [List.length_nil]; omega) (by omega)

/-- Witness for `base2_decode_misaligned`: three binary digits are not a
multiple of 8, so decoding `"000"` fails. -/
theorem base2_decode_misaligned_witness :
    ¬ (("000".toList.filter is_base2).length % 8 = 0) ∧
    base2_decode_block "000".toList 10 true false = .error .misalignedLength :=
  ⟨by decide, base2_decode_misaligned "000".toList 10 true false (by decide) (by decide) (by decide)⟩

/-- Output length of the z85 encode loop: with room in the output buffer it
emits exactly five symbols per 4-byte group. -/
theorem z85_encode_go_length (outlen : Nat) :
    ∀ (inp : List Nat) (j : Nat), inp.length % 4 = 0 → j + 5 * (inp.length / 4) ≤ outlen →
      (z85_encode_go outlen inp j).length = 5 * (inp.length / 4)
  | [], j, hm, hb => by simp [z85_encode_go]
  | [b0], j, hm, hb => by simp at hm
  | [b0, b1], j, hm, hb => by simp at hm
  | [b0, b1, b2], j, hm, hb => by simp at hm
  | b0 :: b1 :: b2 :: b3 :: rest, j, hm, hb => by
    have hlen : (b0 :: b1 :: b2 :: b3 :: rest).length = rest.length + 4 := by simp
    have hm' : rest.length % 4 = 0 := by omega
    have hdiv : (b0 :: b1 :: b2 :: b3 :: rest).length / 4 = rest.length / 4 + 1 := by
      rw [hlen, Nat.add_div_right _ (by norm_num)]
    rw [hdiv] at hb
    have hguard : j + 4 < outlen := by omega
    have hrec := z85_encode_go_length outlen rest (j + 5) hm' (by omega)
    rw [z85_encode_go, if_pos hguard]
    simp only [List.length_append, List.length_cons, List.length_nil, hrec, hdiv]
    omega

/-- C7: z85 encoding fails with the misaligned-length error exactly when the
input length is not a multiple of 4; otherwise (with room in the output
buffer) it succeeds and emits five symbols per four input bytes. -/
theorem z85_encode_length_spec (inp : List Nat) (outlen : Nat)
    (hout : 5 * (inp.length / 4) ≤ outlen) :
    Except.map List.length (z85_encode_block inp outlen) =
      if inp.length % 4 = 0 then .ok (5 * (inp.length / 4)) else .error .misalignedLength := by
  rw [z85_encode_block]
  by_cases hm : inp.length % 4 = 0
  · rw [if_pos hm, if_pos hm, Except.map, z85_encode_go_length outlen inp 0 hm (by omega)]
  · rw [if_neg hm, if_neg hm, Except.map]

/-- Witness for `z85_encode_length_spec` at the reference-vector input
`[0x86, 0x4F, 0xD2, 0x6F]` with output bound 5. -/
theorem z85_encode_length_spec_witness :
    5 * (([0x86, 0x4F, 0xD2, 0x6F] : List Nat).length / 4) ≤ 5 ∧
    Except.map List.length (z85_encode_block [0x86, 0x4F, 0xD2, 0x6F] 5) = .ok 5 :=
  ⟨by decide, (z85_encode_length_spec [0x86, 0x4F, 0xD2, 0x6F] 5 (by decide)).trans (by decide)⟩

/-- One-step unfolding of the z85 decode loop on a cons cell. -/
theorem z85_decode_go_cons (ig : Bool) (outlen : Nat) (c : Char) (rest : List Char)
    (buf out : List Nat) :
    z85_decode_go ig outlen (c :: rest) buf out =
      (if out.length + 3 < outlen then
        if isNL c then z85_decode_go ig outlen rest buf out
        else if is_z85 c then
          let buf2 := buf ++ [z85val c]
          if buf2.length = 5 then
            let v := buf2.foldl (fun a d => (a * 85 + d) % 4294967296) 0
            z85_decode_go ig outlen rest []
              (out ++ [(v >>> 24) &&& 0xFF, (v >>> 16) &&& 0xFF, (v >>> 8) &&& 0xFF, v &&& 0xFF])
          else z85_decode_go ig outlen rest buf2 out
        else if ig then z85_decode_go ig outlen rest buf out
        else .error .invalidInput
      else if 0 < buf.length then .error .misalignedLength else .ok out) := rfl

/-- A line-break character is not a z85 symbol. -/
theorem isNL_not_z85 (c : Char) (h : isNL c = true) : is_z85 c = false := by
  simp [isNL] at h
  rcases h with h | h <;> subst h <;> decide

/-- Loop invariant for `z85_decode_go` under ignore-garbage: if the count of
pending plus remaining valid symbols is not a multiple of 5 and the output
bound is never hit, the loop ends in the misaligned-length error. -/
theorem z85_go_misaligned (outlen : Nat) :
    ∀ (rest : List Char) (buf out : List Nat),
      buf.length ≤ 4 →
      out.length + buf.length + (rest.filter is_z85).length + 4 ≤ outlen →
      ¬ (buf.length + (rest.filter is_z85).length) % 5 = 0 →
      z85_decode_go true outlen rest buf out = .error .misalignedLength := by
  intro rest
  induction rest with
  | nil =>
    intro buf out h4 hb hm
    simp only [List.filter_nil, List.length_nil, Nat.add_zero] at hm
    have hbuf : 0 < buf.length := by omega
    rw [show z85_decode_go true outlen [] buf out
        = (if 0 < buf.length then .error .misalignedLength else .ok out) from rfl, if_pos hbuf]
  | cons c rest ih =>
    intro buf out h4 hb hm
    have hout : out.length + 3 < outlen := by omega
    rw [z85_decode_go_cons, if_pos hout]
    by_cases hnl : isNL c = true
    · rw [if_pos hnl]
      have hfc : is_z85 c = false := isNL_not_z85 c hnl
      have hfil : (c :: rest).filter is_z85 = rest.filter is_z85 := by
        simp [List.filter_cons, hfc]
      rw [hfil] at hb hm
      exact ih buf out h4 hb hm
    · rw [if_neg hnl]
      by_cases hz : is_z85 c = true
      · rw [if_pos hz]
        have hfil : ((c :: rest).filter is_z85).length = (rest.filter is_z85).length + 1 := by
          simp [List.filter_cons, hz]
        rw [hfil] at hb hm
        dsimp only
        split_ifs with hfull
        · have hbl : buf.length = 4 := by
            simp only [List.length_append, List.length_cons, List.length_nil] at hfull
            omega
          refine ih [] (out ++ [_, _, _, _]) (by simp) ?_ ?_
          · simp only [List.length_append, List.length_cons, List.length_nil]
            omega
          · simp only [List.length_nil]
            omega
        · have hbl : buf.length + 1 ≠ 5 := by
            intro hh
            apply hfull
            simp only [List.length_append, List.length_cons, List.length_nil]
            omega
          refine ih (buf ++ [z85val c]) out ?_ ?_ ?_ <;>
            simp only [List.length_append, List.length_cons, List.length_nil] <;> omega
      · rw [if_neg hz, if_pos rfl]
        have hfil : (c :: rest).filter is_z85 = rest.filter is_z85 := by
          simp only [List.filter_cons]
          simp [hz]
        rw [hfil] at hb hm
        exact ih buf out h4 hb hm

/-- C8 (amended): z85 decoding without ignore-garbage first rejects any input
whose raw length (line breaks included) is not a multiple of 5; with
ignore-garbage the only length check is the end-of-loop one, which (with room
in the output buffer) fails exactly when the count of valid symbols after
garbage and line-break removal is not a multiple of 5. -/
theorem z85_decode_length_checks (input : List Char) (outlen : Nat) :
    (¬ input.length % 5 = 0 → z85_decode_block input outlen false = .error .misalignedLength)
    ∧ (input.length + 4 ≤ outlen → ¬ (input.filter is_z85).length % 5 = 0 →
        z85_decode_block input outlen true = .error .misalignedLength) := by
  constructor
  · intro hm
    rw [z85_decode_block, if_pos ⟨hm, rfl⟩]
  · intro hb hm
    have hf : (input.filter is_z85).length ≤ input.length := List.length_filter_le _ _
    rw [z85_decode_block]
    rw [if_neg (by simp)]
    exact z85_go_misaligned outlen input [] [] (by simp) (by simp; omega) (by simpa using hm)

/-- Witness for `z85_decode_length_checks` at the concrete inputs `"a"`
(raw length 1) and `"aaaa"` (four valid symbols under ignore-garbage). -/
theorem z85_decode_length_checks_witness :
    (¬ ("a".toList.length % 5 = 0) ∧
      z85_decode_block "a".toList 9 false = .error .misalignedLength) ∧
    ("aaaa".toList.length + 4 ≤ 9 ∧ ¬ ("aaaa".toList.filter is_z85).length % 5 = 0 ∧
      z85_decode_block "aaaa".toList 9 true = .error .misalignedLength) :=
  ⟨⟨by decide, (z85_decode_length_checks "a".toList 9).1 (by decide)⟩,
   ⟨by decide, by decide, (z85_decode_length_checks "aaaa".toList 9).2 (by decide) (by decide)⟩⟩

/-- A hex digit is not a line break. -/
theorem base16_not_nl (c : Char) (h : is_base16 c = true) : isNL c = false := by
  cases hc : isNL c
  · rfl
  · exfalso
    simp only [isNL, Bool.or_eq_true, beq_iff_eq] at hc
    simp only [is_base16, Bool.or_eq_true, decide_eq_true_eq] at h
    rcases hc with rfl | rfl
    · have h10 : ('\n' : Char).toNat = 10 := rfl
      rw [h10] at h
      omega
    · have h13 : ('\r' : Char).toNat = 13 := rfl
      rw [h13] at h
      omega

/-- A hex digit has a hex value. -/
theorem base16_val_ne (c : Char) (h : is_base16 c = true) :
    ¬ base16_char_to_value c = -1 := by
  simp only [is_base16, Bool.or_eq_true, decide_eq_true_eq] at h
  rw [base16_char_to_value]
  rcases h with (h | h) | h
  · rw [if_pos h]; omega
  · rw [if_neg (by omega), if_pos h]; omega
  · rw [if_neg (by omega), if_neg (by omega), if_pos h]; omega

/-- Loop invariant for `base16_decode_go` on all-hex input: the loop consumes
digits in pairs, never fails, and appends exactly `⌊n/2⌋` bytes. -/
theorem base16_go_ok (ig : Bool) (outlen : Nat) :
    ∀ (input : List Char) (out : List Nat),
      (∀ c ∈ input, is_base16 c = true) →
      out.length + input.length / 2 ≤ outlen →
      ∃ res, base16_decode_go ig outlen input out = .ok res ∧
        res.length = out.length + input.length / 2
  | [], out, hhex, hb => ⟨out, rfl, by simp⟩
  | [a], out, hhex, hb => ⟨out, rfl, by simp⟩
  | a :: b :: rest, out, hhex, hb => by
    have hha : is_base16 a = true := hhex a (by simp)
    have hhb : is_base16 b = true := hhex b (by simp)
    have hdiv : (a :: b :: rest).length / 2 = rest.length / 2 + 1 := by
      simp only [List.length_cons]
      omega
    rw [hdiv] at hb
    have hout : out.length < outlen := by omega
    rw [base16_decode_go, if_pos hout, base16_not_nl a hha, if_neg (base16_val_ne a hha),
      base16_not_nl b hhb, if_neg (base16_val_ne b hhb)]
    simp only [Bool.false_eq_true, if_false]
    obtain ⟨res, hres, hlen⟩ := base16_go_ok ig outlen rest
      (out ++ [((base16_char_to_value a).toNat <<< 4) ||| (base16_char_to_value b).toNat])
      (fun c hc => hhex c (by simp [hc]))
      (by simp only [List.length_append, List.length_cons, List.length_nil]; omega)
    refine ⟨res, hres, ?_⟩
    rw [hlen]
    simp only [List.length_append, List.length_cons, List.length_nil, hdiv]
    omega

/-- C10: base16 decoding of an all-hex-digit input (with room in the output
buffer) never fails and returns exactly `⌊n/2⌋` bytes, a final unpaired digit
being silently discarded, for either setting of ignore-garbage. -/
theorem base16_decode_odd_ok (input : List Char) (outlen : Nat) (ig : Bool)
    (hhex : ∀ c ∈ input, is_base16 c = true) (hlen : input.length ≤ 2 * outlen) :
    ∃ res, base16_decode_block input outlen ig = .ok res ∧
      res.length = input.length / 2 := by
  obtain ⟨res, hres, hl⟩ := base16_go_ok ig outlen input []
    hhex (by simp only [List.length_nil]; omega)
  exact ⟨res, hres, by simpa using hl⟩

/-- Witness for `base16_decode_odd_ok` at the odd-length input `"ABC"`. -/
theorem base16_decode_odd_ok_witness :
    (∀ c ∈ "ABC".toList, is_base16 c = true) ∧ "ABC".toList.length ≤ 2 * 2 ∧
    (∃ res, base16_decode_block "ABC".toList 2 false = .ok res ∧
      res.length = "ABC".toList.length / 2) :=
  ⟨by decide, by decide, base16_decode_odd_ok "ABC".toList 2 false (by decide) (by decide)⟩

/-- Below the wrap column, `wrapEmit` passes symbols through and advances the
counter by their number. -/
theorem wrapEmit_low (W : Nat) :
    ∀ (s : List Char) (col : Nat), col + s.length ≤ W → wrapEmit W col s = (s, col + s.length) := by
  intro s
  induction s with
  | nil => intro col h; simp [wrapEmit]
  | cons c rest ih =>
    intro col h
    simp only [List.length_cons] at h
    have hc : ¬ W ≤ col := by omega
    rw [wrapEmit, if_neg hc, ih (col + 1) (by omega)]
    simp
    omega

/-- `wrapEmit` distributes over concatenation, threading the counter. -/
theorem wrapEmit_append (W : Nat) :
    ∀ (a b : List Char) (col : Nat),
      wrapEmit W col (a ++ b) =
        ((wrapEmit W col a).1 ++ (wrapEmit W (wrapEmit W col a).2 b).1,
         (wrapEmit W (wrapEmit W col a).2 b).2) := by
  intro a
  induction a with
  | nil => intro b col; simp [wrapEmit]
  | cons c rest ih =>
    intro b col
    by_cases hc : W ≤ col
    · rw [List.cons_append, wrapEmit, if_pos hc, wrapEmit, if_pos hc, ih b 1]
      rfl
    · rw [List.cons_append, wrapEmit, if_neg hc, wrapEmit, if_neg hc, ih b (col + 1)]
      rfl

/-- After emitting a nonempty buffer the column counter is positive. -/
theorem wrapEmit_pos (W : Nat) :
    ∀ (s : List Char) (col : Nat), s ≠ [] → 0 < (wrapEmit W col s).2 := by
  intro s
  induction s with
  | nil => intro col h; exact absurd rfl h
  | cons c rest ih =>
    intro col h
    by_cases hr : rest = []
    · subst hr
      by_cases hc : W ≤ col
      · rw [wrapEmit, if_pos hc]
        simp [wrapEmit]
      · rw [wrapEmit, if_neg hc]
        simp [wrapEmit]
    · by_cases hc : W ≤ col
      · rw [wrapEmit, if_pos hc]
        exact ih 1 hr
      · rw [wrapEmit, if_neg hc]
        exact ih (col + 1) hr

/-- At or past the wrap column, a nonempty buffer triggers one line break and
then restarts from column zero. -/
theorem wrapEmit_high (W : Nat) (hW : 0 < W) (s : List Char) (col : Nat)
    (hs : s ≠ []) (hc : W ≤ col) :
    wrapEmit W col s = ('\n' :: (wrapEmit W 0 s).1, (wrapEmit W 0 s).2) := by
  cases s with
  | nil => exact absurd rfl hs
  | cons c rest =>
    rw [wrapEmit, if_pos hc, wrapEmit, if_neg (by omega)]

/-- Line decomposition of the wrap loop's output from column zero: the emitted
text is a nonempty list of lines joined by line breaks, all of width `W`
except the last, which has between 1 and `W` symbols. -/
theorem wrapEmit_lines (W : Nat) (hW : 0 < W) (s : List Char) (hs : s ≠ [])
    (hnl : ∀ c ∈ s, c ≠ '\n') :
    ∃ lines : List (List Char), lines ≠ [] ∧ (wrapEmit W 0 s).1 = joinLines lines ∧
      (∀ l ∈ lines.dropLast, l.length = W) ∧
      (∀ l ∈ lines, 1 ≤ l.length ∧ l.length ≤ W) ∧
      (∀ l ∈ lines, ∀ c ∈ l, c ≠ '\n') := by
  by_cases hlen : s.length ≤ W
  · refine ⟨[s], by simp, ?_, by simp, ?_, ?_⟩
    · rw [wrapEmit_low W s 0 (by omega)]
      rfl
    · intro l hl
      simp only [List.mem_singleton] at hl
      rw [hl]
      exact ⟨List.length_pos.mpr hs, hlen⟩
    · intro l hl
      simp only [List.mem_singleton] at hl
      rw [hl]
      exact hnl
  · push_neg at hlen
    have htake : (s.take W).length = W := by
      rw [List.length_take]
      omega
    have hdrop : s.drop W ≠ [] := by
      intro hh
      have := congrArg List.length hh
      rw [List.length_drop] at this
      simp at this
      omega
    obtain ⟨ls, hne, heq, hinit, hall, hlnl⟩ :=
      wrapEmit_lines W hW (s.drop W) hdrop
        (fun c hc => hnl c (List.mem_of_mem_drop hc))
    refine ⟨s.take W :: ls, by simp, ?_, ?_, ?_, ?_⟩
    · conv_lhs => rw [show s = s.take W ++ s.drop W from (List.take_append_drop W s).symm]
      rw [wrapEmit_append, wrapEmit_low W (s.take W) 0 (by omega), htake]
      dsimp only
      rw [Nat.zero_add, wrapEmit_high W hW (s.drop W) W hdrop (le_refl W)]
      obtain ⟨m, rest, rfl⟩ : ∃ m rest, ls = m :: rest := by
        cases ls with
        | nil => exact absurd rfl hne
        | cons m rest => exact ⟨m, rest, rfl⟩
      rw [heq]
      rfl
    · obtain ⟨m, rest, rfl⟩ : ∃ m rest, ls = m :: rest := by
        cases ls with
        | nil => exact absurd rfl hne
        | cons m rest => exact ⟨m, rest, rfl⟩
      intro l hl
      rw [List.dropLast_cons₂] at hl
      rcases List.mem_cons.mp hl with rfl | hl
      · exact htake
      · exact hinit l hl
    · intro l hl
      rcases List.mem_cons.mp hl with rfl | hl
      · rw [htake]
        omega
      · exact hall l hl
    · intro l hl
      rcases List.mem_cons.mp hl with rfl | hl
      · exact fun c hc => hnl c (List.take_subset W s hc)
      · exact hlnl l hl
termination_by s.length
decreasing_by
  rw [List.length_drop]
  omega

/-- With a positive wrap column, the chunk-by-chunk fold of `wrap_write` over
an encode run equals one `wrapEmit` pass over the concatenated symbols. -/
theorem fold_wrap (W : Nat) (hW : 0 < W) :
    ∀ (chunks : List (List Char)) (acc : List Char) (col : Nat),
      chunks.foldl
        (fun (a : List Char × Nat) ch =>
          let w := wrap_write W a.2 ch
          (a.1 ++ w.1, w.2)) (acc, col)
        = (acc ++ (wrapEmit W col chunks.flatten).1, (wrapEmit W col chunks.flatten).2) := by
  intro chunks
  induction chunks with
  | nil => intro acc col; simp [wrapEmit]
  | cons ch chs ih =>
    intro acc col
    rw [List.foldl_cons]
    dsimp only
    rw [wrap_write, if_neg (by omega), ih, List.flatten_cons, wrapEmit_append]
    simp

/-- C9: for every encode run with wrap column `W > 0` over chunks whose
concatenation is nonempty and contains no line break, the emitted text is a
nonempty list of lines joined by line breaks with one trailing line break:
every line except the last has exactly `W` symbols and the last has between 1
and `W`. -/
theorem encode_wrap_invariant (W : Nat) (chunks : List (List Char)) (hW : 0 < W)
    (hne : chunks.flatten ≠ []) (hnl : ∀ c ∈ chunks.flatten, c ≠ '\n') :
    ∃ lines : List (List Char), lines ≠ [] ∧
      encode_run W chunks = joinLines lines ++ ['\n'] ∧
      (∀ l ∈ lines.dropLast, l.length = W) ∧
      (∀ l ∈ lines, 1 ≤ l.length ∧ l.length ≤ W) ∧
      (∀ l ∈ lines, ∀ c ∈ l, c ≠ '\n') := by
  obtain ⟨lines, h1, h2, h3, h4, h5⟩ := wrapEmit_lines W hW chunks.flatten hne hnl
  refine ⟨lines, h1, ?_, h3, h4, h5⟩
  rw [encode_run]
  dsimp only
  rw [fold_wrap W hW chunks [] 0]
  have hcol := wrapEmit_pos W chunks.flatten 0 hne
  rw [if_pos ⟨hW, hcol⟩]
  dsimp only
  rw [h2, List.nil_append]

/-- Witness for `encode_wrap_invariant` at wrap column 3 over the chunks
`["abcd"]`. -/
theorem encode_wrap_invariant_witness :
    (0 : Nat) < 3 ∧ List.flatten ["abcd".toList] ≠ [] ∧
    (∀ c ∈ List.flatten ["abcd".toList], c ≠ '\n') ∧
    (∃ lines : List (List Char), lines ≠ [] ∧
      encode_run 3 ["abcd".toList] = joinLines lines ++ ['\n'] ∧
      (∀ l ∈ lines.dropLast, l.length = 3) ∧
      (∀ l ∈ lines, 1 ≤ l.length ∧ l.length ≤ 3) ∧
      (∀ l ∈ lines, ∀ c ∈ l, c ≠ '\n')) :=
  ⟨by decide, by decide, by decide,
   encode_wrap_invariant 3 ["abcd".toList] (by decide) (by decide) (by decide)⟩
